import Mathlib

/-
  Verification development for the symphony-of-one hub server.
  The hub (rooms, agents, messages, notifications, memories) is embedded
  shallowly: JavaScript Maps become association lists, SQLite tables become
  lists of row structures, and the non-deterministic inputs of the handlers
  (uuids, clock readings) are passed as explicit parameters.
-/

/-! ## Mention parser (parseMentions, hub lines 172-182)

The JS code matches the global regex on "@" followed by word characters with
optional dash-separated word segments, collecting capture group 1 of every
match in order.  The embedding scans the character list left to right exactly
as the regex exec loop does: at each position, either a maximal token
starts (consuming it and continuing after it) or the scan advances one
character.  Fuel arguments make the definitions structurally recursive; the
fuel is always instantiated with the length of the scanned list, which is
sufficient. -/

/-- JS regex word character: ASCII letters, digits, underscore, written over
code points (97-122 lowercase, 65-90 uppercase, 48-57 digits, 95 the
underscore). -/
def wordChar (c : Char) : Bool :=
  let n := c.toNat
  (97 ≤ n && n ≤ 122) || (65 ≤ n && n ≤ 90) || (48 ≤ n && n ≤ 57) || n == 95

/-- Whether the list starts with a word character. -/
def headWord : List Char → Bool
  | [] => false
  | c :: _ => wordChar c

/-- Greedy matcher for the regex tail `(?:-\w+)*`: consumes dash-then-word-run
segments as long as possible, returning the consumed prefix and the rest. -/
def dashSegsF : Nat → List Char → List Char × List Char
  | 0, cs => ([], cs)
  | _ + 1, [] => ([], [])
  | fuel + 1, c :: rest =>
    if c == '-' then
      let w := rest.takeWhile wordChar
      if w.isEmpty then ([], c :: rest)
      else
        let p := dashSegsF fuel (rest.dropWhile wordChar)
        (c :: (w ++ p.1), p.2)
    else ([], c :: rest)

/-- The regex exec loop: scan left to right; at an "@" followed by at least
one word character, emit the maximal `\w+(?:-\w+)*` capture and continue
after the match, otherwise advance one character. -/
def scanMentionsF : Nat → List Char → List (List Char)
  | 0, _ => []
  | _ + 1, [] => []
  | fuel + 1, c :: rest =>
    if c == '@' then
      let w := rest.takeWhile wordChar
      if w.isEmpty then scanMentionsF fuel rest
      else
        let p := dashSegsF rest.length (rest.dropWhile wordChar)
        (w ++ p.1) :: scanMentionsF fuel p.2
    else scanMentionsF fuel rest

/-- parseMentions (hub lines 172-182): ordered mention names, duplicates kept. -/
def parseMentions (content : String) : List String :=
  (scanMentionsF content.data.length content.data).map (fun cs => String.mk cs)

example : parseMentions "hello @Bob" = ["Bob"] := by decide
example : parseMentions "@multi-part-name x" = ["multi-part-name"] := by decide
example : parseMentions "@a @b @a" = ["a", "b", "a"] := by decide
example : parseMentions "a@b c@@d @-x @y-" = ["b", "d", "y"] := by decide
example : parseMentions "@A @a" = ["A", "a"] := by decide
example : parseMentions "@a--b" = ["a"] := by decide

/-! ## Association-list helpers mirroring JS Map semantics -/

/-- JS `Map.prototype.set`: replace the binding if the key is present,
append it otherwise. -/
def setA {κ α : Type} [BEq κ] (m : List (κ × α)) (k : κ) (v : α) : List (κ × α) :=
  if m.any (fun kv => kv.1 == k) then
    m.map (fun kv => if kv.1 == k then (k, v) else kv)
  else m ++ [(k, v)]

/-- In-place mutation of the object bound to `k` (the JS code mutates objects
held in Maps, e.g. `room.agents.add(...)`, `agent.lastActive = ...`). -/
def updateA {κ α : Type} [BEq κ] (m : List (κ × α)) (k : κ) (f : α → α) : List (κ × α) :=
  m.map (fun kv => if kv.1 == k then (kv.1, f kv.2) else kv)

/-- JS `Set.prototype.add`: append if absent. -/
def addSet (s : List String) (x : String) : List String :=
  if s.contains x then s else s ++ [x]

/-! ## Data model (hub lines 50-139)

Timestamps and ids are opaque strings supplied by the caller; composite JSON
values (capabilities, metadata, settings) are carried as opaque strings. -/

structure Agent where
  id : String
  name : String
  room : String
  capabilities : String
  joinedAt : String
  lastActive : String
  socketId : Option String
  status : String
deriving Repr, DecidableEq

structure Message where
  id : String
  type : String
  agentId : Option String := none
  agentName : Option String := none
  content : String
  mentions : List String := []
  metadata : String := ""
  timestamp : String
  room : String
deriving Repr, DecidableEq

structure Room where
  name : String
  agents : List String
  createdAt : String
  isActive : Bool
  settings : String
deriving Repr, DecidableEq

structure RoomRow where
  id : String
  name : String
  createdAt : String
  isActive : Bool
  settings : String
deriving Repr, DecidableEq

structure AgentRow where
  id : String
  name : String
  room : String
  capabilities : String
  joinedAt : String
  lastActive : String
  status : String
deriving Repr, DecidableEq

structure MessageRow where
  id : String
  room : String
  agentId : Option String
  agentName : Option String
  content : String
  type : String
  mentions : List String
  metadata : String
  timestamp : String
deriving Repr, DecidableEq

structure NotificationRow where
  id : String
  agentId : String
  room : String
  message : String
  type : String
  isRead : Bool
  createdAt : String
deriving Repr, DecidableEq

structure MemoryRow where
  id : String
  agentId : String
  room : String
  key : String
  value : String
  type : String
  createdAt : String
  expiresAt : Option String
deriving Repr, DecidableEq

/-- The in-memory maps (rooms, agents, messages) plus the SQLite tables.
The task table is not touched by any claim and is omitted. -/
structure Hub where
  rooms : List (String × Room)
  agents : List (String × Agent)
  messages : List (String × List Message)
  dbRooms : List RoomRow
  dbAgents : List AgentRow
  dbMessages : List MessageRow
  dbNotifications : List NotificationRow
  dbMemory : List MemoryRow
deriving Repr, DecidableEq

def emptyHub : Hub :=
  { rooms := [], agents := [], messages := [], dbRooms := [], dbAgents := [],
    dbMessages := [], dbNotifications := [], dbMemory := [] }

/-! ## State and store operations -/

/-- findAgentByName (hub lines 212-219): first agent, in map insertion order,
whose display name equals the argument; the comparison is case-sensitive. -/
def findAgentByName (agents : List (String × Agent)) (agentName : String) : Option Agent :=
  (agents.map Prod.snd).find? (fun a => a.name == agentName)

/-- createNotifications (hub lines 185-209): one row is built per entry of
`mentions` (each with its own fresh uuid, modelled by `notifIds` indexed by
the position of the mention), then rows whose recipient name did not resolve
are dropped.  The INSERT leaves is_read at its column default 0. -/
def createNotifsAux (agents : List (String × Agent)) (msg : Message)
    (notifIds : Nat → String) (now : String) : Nat → List String → List NotificationRow
  | _, [] => []
  | i, nm :: rest =>
    match findAgentByName agents nm with
    | none => createNotifsAux agents msg notifIds now (i + 1) rest
    | some a =>
      { id := notifIds i, agentId := a.id, room := msg.room,
        message := (msg.agentName.getD "undefined") ++ " mentioned you: " ++
          (msg.content.take 100) ++ "...",
        type := "mention", isRead := false, createdAt := now } ::
        createNotifsAux agents msg notifIds now (i + 1) rest

def createNotifications (agents : List (String × Agent)) (msg : Message)
    (mentions : List String) (notifIds : Nat → String) (now : String) :
    List NotificationRow :=
  createNotifsAux agents msg notifIds now 0 mentions

/-- INSERT OR REPLACE INTO rooms: the name column is UNIQUE, so a conflicting
row is replaced. -/
def upsertRoomRow (rows : List RoomRow) (row : RoomRow) : List RoomRow :=
  (rows.filter (fun r => !(r.name == row.name))) ++ [row]

/-- INSERT OR REPLACE INTO agents keyed by the id primary key. -/
def upsertAgentRow (rows : List AgentRow) (row : AgentRow) : List AgentRow :=
  (rows.filter (fun r => !(r.id == row.id))) ++ [row]

/-- getRoom (hub lines 279-301): get-or-create; a fresh room gets an empty
agent set, an empty message log, and an INSERT OR REPLACE into the rooms
table.  (The per-room file watcher side effect is not modelled.) -/
def getRoom (h : Hub) (roomName : String) (newRoomId now : String) : Hub × Room :=
  match h.rooms.lookup roomName with
  | some r => (h, r)
  | none =>
    let room : Room :=
      { name := roomName, agents := [], createdAt := now, isActive := true,
        settings := "\x7b\x7d" }
    ({ h with
        rooms := h.rooms ++ [(roomName, room)],
        messages := h.messages ++ [(roomName, [])],
        dbRooms := upsertRoomRow h.dbRooms
          { id := newRoomId, name := roomName, createdAt := now, isActive := true,
            settings := "\x7b\x7d" } }, room)

/-- POST /api/join/:room (hub lines 304-360).  Returns the updated hub and the
roster (`currentAgents`, looked up without the Boolean filter the other
endpoints use). -/
def joinRoom (h : Hub) (roomName agentId agentName capabilities : String)
    (newRoomId msgId now : String) : Hub × List (Option Agent) :=
  let h1 := (getRoom h roomName newRoomId now).1
  let h2 := { h1 with
    rooms := updateA h1.rooms roomName (fun r => { r with agents := addSet r.agents agentId }) }
  let agent : Agent :=
    { id := agentId, name := agentName, room := roomName, capabilities := capabilities,
      joinedAt := now, lastActive := now, socketId := none, status := "active" }
  let h3 := { h2 with
    agents := setA h2.agents agentId agent,
    dbAgents := upsertAgentRow h2.dbAgents
      { id := agentId, name := agentName, room := roomName, capabilities := capabilities,
        joinedAt := now, lastActive := now, status := "active" } }
  let joinMessage : Message :=
    { id := msgId, type := "system", agentId := none, agentName := some "System",
      content := agentName ++ " has joined the room", timestamp := now, room := roomName,
      mentions := [], metadata := "\x7b\"type\":\"join\"\x7d" }
  let h4 := { h3 with
    messages := updateA h3.messages roomName (fun log => log ++ [joinMessage]),
    dbMessages := h3.dbMessages ++
      [{ id := msgId, room := roomName, agentId := none, agentName := some "System",
         content := joinMessage.content, type := "system", mentions := [],
         metadata := joinMessage.metadata, timestamp := now }] }
  (h4, (match h4.rooms.lookup roomName with
        | some r => r.agents
        | none => []).map (fun i => h4.agents.lookup i))

/-- Outcome of POST /api/send. `typeError` marks the uncaught exception the
handler raises when the message log for the agent's room is missing
(`messages.get(agent.room).push` on undefined); no state was mutated yet at
that point. -/
inductive SendOut where
  | notFound
  | typeError
  | ok (messageId : String) (mentions : List String)
deriving Repr, DecidableEq

/-- POST /api/send (hub lines 390-435): parse mentions, append the message to
the room log, persist it, refresh the sender's lastActive in memory and in
the agents table, and create notifications when mentions resolved. -/
def send (h : Hub) (agentId content metadata : String) (msgId now : String)
    (notifIds : Nat → String) : Hub × SendOut :=
  match h.agents.lookup agentId with
  | none => (h, .notFound)
  | some agent =>
    let mentions := parseMentions content
    let message : Message :=
      { id := msgId, type := "message", agentId := some agentId,
        agentName := some agent.name, content := content, mentions := mentions,
        metadata := metadata, timestamp := now, room := agent.room }
    match h.messages.lookup agent.room with
    | none => (h, .typeError)
    | some _ =>
      let h1 := { h with
        messages := updateA h.messages agent.room (fun log => log ++ [message]),
        dbMessages := h.dbMessages ++
          [({ id := msgId, room := agent.room, agentId := some agentId,
              agentName := some agent.name, content := content, type := "message",
              mentions := mentions, metadata := metadata,
              timestamp := now } : MessageRow)] }
      let h2 := { h1 with
        agents := setA h1.agents agentId { agent with lastActive := now },
        dbAgents := h1.dbAgents.map
          (fun (r : AgentRow) =>
            if r.id == agentId then { r with lastActive := now } else r) }
      let h3 :=
        if mentions.isEmpty then h2
        else { h2 with
          dbNotifications := h2.dbNotifications ++
            createNotifications h2.agents message mentions notifIds now }
      (h3, .ok msgId mentions)

/-- POST /api/broadcast/:room (hub lines 527-544): always replies success with
a fresh message id; the push into the log uses optional chaining, so a missing
log is a silent no-op; nothing is written to the store (the JS object also
lacks agentId, agentName, mentions and metadata fields, modelled by the
sentinels below). -/
def broadcast (h : Hub) (roomName content : String) (fromQ : Option String)
    (msgId now : String) : Hub × String :=
  let sender := fromQ.getD "Orchestrator"
  let message : Message :=
    { id := msgId, type := "broadcast", agentId := none, agentName := none,
      content := "[" ++ sender ++ "] " ++ content, mentions := [], metadata := "",
      timestamp := now, room := roomName }
  let h1 := match h.messages.lookup roomName with
    | none => h
    | some _ => { h with
        messages := updateA h.messages roomName (fun log => log ++ [message]) }
  (h1, msgId)

/-! ## GET /api/messages/:room (hub lines 437-453)

The handler computes `roomMessages.slice(-parseInt(limit))` where `limit`
defaults to 100.  `parseInt` and single-argument `slice` are embedded with
their JS semantics (`none` stands for NaN). -/

/-- Hexadecimal digit value by code point (48-57 digits, 97-102 and 65-70
the two letter ranges). -/
def hexDigit (c : Char) : Option Nat :=
  let n := c.toNat
  if 48 ≤ n && n ≤ 57 then some (n - 48)
  else if 97 ≤ n && n ≤ 102 then some (n - 87)
  else if 65 ≤ n && n ≤ 70 then some (n - 55)
  else none

def digitVal (base : Nat) (c : Char) : Option Nat :=
  match hexDigit c with
  | some v => if v < base then some v else none
  | none => none

/-- Horner accumulation over the maximal leading digit run. -/
def digitsAcc (base : Nat) : List Char → Nat → Nat
  | [], acc => acc
  | c :: rest, acc =>
    match digitVal base c with
    | some v => digitsAcc base rest (acc * base + v)
    | none => acc

def jsParseIntCore (base : Nat) (cs : List Char) : Option Int :=
  match cs with
  | [] => none
  | c :: _ =>
    match digitVal base c with
    | none => none
    | some _ => some (Int.ofNat (digitsAcc base cs 0))

def isJsSpace (c : Char) : Bool :=
  c == ' ' || c == '\t' || c == '\n' || c == '\r' || c == '\x0b' || c == '\x0c'

/-- JS `parseInt(s)` restricted to ASCII whitespace: optional sign, optional
0x/0X hex prefix, maximal digit run, trailing garbage ignored; `none` is NaN. -/
def jsParseInt (s : String) : Option Int :=
  let cs := s.data.dropWhile isJsSpace
  let signed : Int × List Char :=
    match cs with
    | '-' :: rest => (-1, rest)
    | '+' :: rest => (1, rest)
    | _ => (1, cs)
  let based : Nat × List Char :=
    match signed.2 with
    | '0' :: 'x' :: rest => (16, rest)
    | '0' :: 'X' :: rest => (16, rest)
    | _ => (10, signed.2)
  (jsParseIntCore based.1 based.2).map (fun v => signed.1 * v)

/-- `Array.prototype.slice` with a single argument (NaN modelled as `none`,
which ToIntegerOrInfinity turns into 0). -/
def jsSlice (l : List Message) (n : Option Int) : List Message :=
  let len : Int := Int.ofNat l.length
  let start : Int :=
    match n with
    | none => 0
    | some k => if k < 0 then max (len + k) 0 else min k len
  l.drop start.toNat

/-- The since/limit pipeline of GET /api/messages/:room.  `getTime` models
`new Date(str).getTime()` with `none` for NaN; a NaN on either side makes the
strict comparison false, dropping the message. -/
def historyMessages (log : List Message) (getTime : String → Option Int)
    (since : Option String) (limit : Option String) : List Message :=
  let filtered :=
    match since with
    | none => log
    | some s =>
      let sinceTime := getTime s
      log.filter (fun m =>
        match sinceTime, getTime m.timestamp with
        | some st, some mt => decide (st < mt)
        | _, _ => false)
  jsSlice filtered ((jsParseInt (limit.getD "100")).map (fun k => -k))

/-- GET /api/messages/:room: `messages.get(room) || []` then the pipeline. -/
def apiMessages (h : Hub) (room : String) (getTime : String → Option Int)
    (since : Option String) (limit : Option String) : List Message :=
  historyMessages ((h.messages.lookup room).getD []) getTime since limit

/-! ## Agent memory endpoints (hub lines 574-635) -/

inductive MemOut where
  | notFound
  | ok (memoryId : String)
deriving Repr, DecidableEq

/-- POST /api/memory/:agentId.  `expiresAtIso` models
`new Date(Date.now() + expiresIn * 1000).toISOString()` when expiresIn was
given (ISO-8601 UTC: date, letter T, time with milliseconds, suffix Z) and
null otherwise; `nowIso` models `new Date().toISOString()`. -/
def storeMemory (h : Hub) (agentId key value ty : String)
    (expiresAtIso : Option String) (memoryId nowIso : String) : Hub × MemOut :=
  match h.agents.lookup agentId with
  | none => (h, .notFound)
  | some agent =>
    ({ h with dbMemory := h.dbMemory ++
        [{ id := memoryId, agentId := agentId, room := agent.room, key := key,
           value := value, type := ty, createdAt := nowIso,
           expiresAt := expiresAtIso }] }, .ok memoryId)

/-- Lexicographic order on character lists by code point: for the ASCII
strings involved this is exactly the byte order SQLite uses for TEXT. -/
def lexLt : List Char → List Char → Bool
  | [], [] => false
  | [], _ :: _ => true
  | _ :: _, [] => false
  | a :: as, b :: bs => if a < b then true else if b < a then false else lexLt as bs

/-- The WHERE clause `expires_at IS NULL OR expires_at > datetime(now)`.
Both operands are TEXT (the stored ISO string cannot be coerced by the NUMERIC
column affinity, and the datetime function returns TEXT in the format
YYYY-MM-DD HH:MM:SS), so SQLite compares the raw strings; `nowSql` is the
datetime-now string. -/
def memoryActive (row : MemoryRow) (nowSql : String) : Bool :=
  match row.expiresAt with
  | none => true
  | some e => lexLt nowSql.data e.data

/-- ORDER BY created_at DESC, embedded as an insertion sort (stable;
SQLite leaves the order of ties unspecified). -/
def insertDesc (r : MemoryRow) : List MemoryRow → List MemoryRow
  | [] => [r]
  | x :: xs =>
    if !lexLt r.createdAt.data x.createdAt.data then r :: x :: xs
    else x :: insertDesc r xs

def sortByCreatedDesc (rows : List MemoryRow) : List MemoryRow :=
  rows.foldr insertDesc []

/-- GET /api/memory/:agentId (hub lines 608-635): filter by agent, drop rows
the expiry clause excludes, apply the optional key and type filters, order
newest first. -/
def getMemory (rows : List MemoryRow) (agentId : String) (key ty : Option String)
    (nowSql : String) : List MemoryRow :=
  sortByCreatedDesc (rows.filter (fun r =>
    r.agentId == agentId && memoryActive r nowSql &&
    (match key with | none => true | some k => r.key == k) &&
    (match ty with | none => true | some t => r.type == t)))

/-! ## Notification read endpoint (hub lines 660-671) -/

/-- POST /api/notifications/:notificationId/read runs
`UPDATE notifications SET is_read = 1 WHERE id = ?` and replies
`updated: this.changes > 0`.  sqlite3_changes counts the rows matched by the
UPDATE even when the stored value is already 1, so the flag is true exactly
when a row with that id exists. -/
def markNotificationRead (rows : List NotificationRow) (notificationId : String) :
    List NotificationRow × Bool :=
  (rows.map (fun r =>
    if r.id == notificationId then { r with isRead := true } else r),
   rows.any (fun r => r.id == notificationId))

/-! ## Startup hydration and room listing -/

/-- loadDataFromDatabase (hub lines 146-169): reads the active rows of the
rooms table only; every hydrated room receives an empty agent set and an
empty message log.  No other table is read at startup. -/
def loadDataFromDatabase (h : Hub) : Hub :=
  let act := h.dbRooms.filter (fun r => r.isActive)
  { h with
    rooms := act.map (fun r =>
      (r.name, { name := r.name, agents := [], createdAt := r.createdAt,
                 isActive := r.isActive, settings := r.settings })),
    messages := act.map (fun r => (r.name, [])) }

/-- A process restart: the in-memory maps start empty and are refilled by
`loadDataFromDatabase`; the database file survives. -/
def restartHub (h : Hub) : Hub :=
  loadDataFromDatabase { h with rooms := [], agents := [], messages := [] }

structure RoomInfo where
  name : String
  agentCount : Nat
  agents : List Agent
  createdAt : String
deriving Repr, DecidableEq

/-- GET /api/rooms (hub lines 455-464). -/
def listRooms (h : Hub) : List RoomInfo :=
  h.rooms.map (fun kv =>
    { name := kv.1, agentCount := kv.2.agents.length,
      agents := kv.2.agents.filterMap (fun i => h.agents.lookup i),
      createdAt := kv.2.createdAt })

/-! ## Sandboxed shared filesystem -/

/-- Modelled from the spec: section 4.7 describes sandboxed read, write, list
and delete operations rooted at the shared directory, but the repository
ships no implementation of them (the servers only create the directory).
An entry is a regular file or a symbolic link whose target is an absolute
segment path that may itself contain dot-dot segments. -/
inductive FsEntry where
  | file (content : String)
  | link (target : List String)
deriving Repr, DecidableEq

/-- Modelled from the spec: the filesystem is a finite map from absolute
normalized segment paths to entries. -/
structure FileSys where
  entries : List (List String × FsEntry)
deriving Repr, DecidableEq

/-- Modelled from the spec: a path argument of a shared-filesystem operation,
either absolute or relative to the shared root. -/
structure ReqPath where
  absolute : Bool
  segs : List String
deriving Repr, DecidableEq

/-- Lexical normalization: drop dot segments, let dot-dot pop the previous
segment (clamping at the filesystem root, as path resolution does). -/
def normalizeSegs (segs : List String) : List String :=
  segs.foldl (fun acc s =>
    if s == "." then acc
    else if s == ".." then acc.dropLast
    else acc ++ [s]) []

/-- Resolve the argument against the root and normalize. -/
def resolveAgainst (root : List String) (p : ReqPath) : List String :=
  if p.absolute then normalizeSegs p.segs else normalizeSegs (root ++ p.segs)

def lookupFs (fs : FileSys) (p : List String) : Option FsEntry :=
  fs.entries.lookup p

/-- Follow symbolic links (fuel-bounded; `none` when the chain is too long). -/
def resolveLinks (fs : FileSys) : Nat → List String → Option (List String)
  | 0, _ => none
  | fuel + 1, p =>
    match lookupFs fs p with
    | some (.link target) => resolveLinks fs fuel (normalizeSegs target)
    | _ => some p

/-- Full resolution of a request path: resolve against the root, normalize,
then chase links. -/
def resolveShared (fs : FileSys) (root : List String) (p : ReqPath) (fuel : Nat) :
    Option (List String) :=
  resolveLinks fs fuel (resolveAgainst root p)

/-- The sandbox predicate: the resolved path lies inside the root. -/
def insideRoot (root p : List String) : Bool :=
  root.isPrefixOf p

inductive FsErr where
  | pathEscape
  | notFound
  | tooManyLinks
deriving Repr, DecidableEq

/-- Modelled from the spec: write resolves, validates against the root, and
only then stores the file (parent directories are implicit in the map). -/
def writeShared (fs : FileSys) (root : List String) (p : ReqPath) (content : String)
    (fuel : Nat) : FileSys × Except FsErr Unit :=
  match resolveShared fs root p fuel with
  | none => (fs, .error .tooManyLinks)
  | some phys =>
    if insideRoot root phys then
      ({ entries := setA fs.entries phys (.file content) }, .ok ())
    else (fs, .error .pathEscape)

/-- Modelled from the spec: read resolves, validates, then returns the file. -/
def readShared (fs : FileSys) (root : List String) (p : ReqPath) (fuel : Nat) :
    Except FsErr String :=
  match resolveShared fs root p fuel with
  | none => .error .tooManyLinks
  | some phys =>
    if insideRoot root phys then
      match lookupFs fs phys with
      | some (.file c) => .ok c
      | _ => .error .notFound
    else .error .pathEscape

/-- Modelled from the spec: delete resolves, validates, then removes the
entry. -/
def deleteShared (fs : FileSys) (root : List String) (p : ReqPath) (fuel : Nat) :
    FileSys × Except FsErr Unit :=
  match resolveShared fs root p fuel with
  | none => (fs, .error .tooManyLinks)
  | some phys =>
    if insideRoot root phys then
      ({ entries := fs.entries.filter (fun kv => !(kv.1 == phys)) }, .ok ())
    else (fs, .error .pathEscape)

/-- Modelled from the spec: list resolves, validates, then returns the paths
under the resolved directory. -/
def listShared (fs : FileSys) (root : List String) (p : ReqPath) (fuel : Nat) :
    Except FsErr (List (List String)) :=
  match resolveShared fs root p fuel with
  | none => .error .tooManyLinks
  | some phys =>
    if insideRoot root phys then
      .ok (fs.entries.filterMap (fun kv =>
        if phys.isPrefixOf kv.1 then some kv.1 else none))
    else .error .pathEscape

/-! ## Specification of the mention parser (claim C7)

The claim describes the output as the occurrences, in order and with
duplicates, of maximal tokens "@ then one or more word characters optionally
extended by dash-word segments".  That description is rendered as an
inductive relation, independent of the exec-loop embedding above, and the
two are proved to agree. -/

/-- A position starts a token when an "@" is followed by a word character. -/
def startsTok : List Char → Bool
  | c :: c2 :: _ => c == '@' && wordChar c2
  | _ => false

/-- The token body grammar `\w+(?:-\w+)*`: a nonempty word run, or a nonempty
word run, a dash, and again a token body. -/
inductive NameOk : List Char → Prop where
  | base (w : List Char) (hne : w ≠ []) (hw : ∀ c ∈ w, wordChar c = true) : NameOk w
  | seg (w rest : List Char) (hne : w ≠ []) (hw : ∀ c ∈ w, wordChar c = true)
      (hrest : NameOk rest) : NameOk (w ++ '-' :: rest)

/-- Whether a token body ending just before `rest` could be extended further:
`rest` begins with a word character, or with a dash followed by a word
character.  Maximality of a match is the negation of this. -/
def canExtend : List Char → Bool
  | [] => false
  | c :: rest => wordChar c || (c == '-' && headWord rest)

/-- The claim, as a relation: scanning left to right, a position that does
not start a token contributes nothing, and a position that starts one
contributes its maximal token body (without the "@") and the scan resumes
after the token.  Order and duplicates are those of the scan; matching is
case-sensitive because `wordChar` and list equality are. -/
inductive SpecMentions : List Char → List (List Char) → Prop where
  | nil : SpecMentions [] []
  | skip (c : Char) (cs : List Char) (ns : List (List Char))
      (h : startsTok (c :: cs) = false) (ht : SpecMentions cs ns) :
      SpecMentions (c :: cs) ns
  | tok (name rest : List Char) (ns : List (List Char)) (hname : NameOk name)
      (hmax : canExtend rest = false) (ht : SpecMentions rest ns) :
      SpecMentions ('@' :: (name ++ rest)) (name :: ns)

/-! ### Facts about the scanner -/

theorem startsTok_cons (c : Char) (rest : List Char) :
    startsTok (c :: rest) = (c == '@' && headWord rest) := by
  cases rest with
  | nil => simp [startsTok, headWord]
  | cons c2 t => rfl

theorem headWord_false_of_takeWhile_empty {rest : List Char}
    (h : (rest.takeWhile wordChar).isEmpty = true) : headWord rest = false := by
  cases rest with
  | nil => rfl
  | cons c t =>
    simp only [List.takeWhile_cons] at h
    cases hw : wordChar c with
    | false => simpa [headWord] using hw
    | true => simp [hw, List.isEmpty] at h

theorem headWord_dropWhile (l : List Char) :
    headWord (l.dropWhile wordChar) = false := by
  induction l with
  | nil => rfl
  | cons c t ih =>
    simp only [List.dropWhile_cons]
    cases hw : wordChar c with
    | false => simpa [headWord] using hw
    | true => simpa [hw] using ih

theorem dashSegsF_append : ∀ (fuel : Nat) (cs : List Char),
    (dashSegsF fuel cs).1 ++ (dashSegsF fuel cs).2 = cs := by
  intro fuel
  induction fuel with
  | zero => intro cs; rfl
  | succ f ih =>
    intro cs
    cases cs with
    | nil => rfl
    | cons c rest =>
      simp only [dashSegsF]
      by_cases hc : c == '-'
      · simp only [hc, if_true]
        by_cases hw : (rest.takeWhile wordChar).isEmpty
        · simp [hw]
        · simp only [hw, Bool.false_eq_true, if_false, List.cons_append,
            List.append_assoc]
          rw [ih (rest.dropWhile wordChar), List.takeWhile_append_dropWhile]
      · simp [hc]

theorem dashSegsF_snd_length (fuel : Nat) (cs : List Char) :
    (dashSegsF fuel cs).2.length ≤ cs.length := by
  have h := dashSegsF_append fuel cs
  have := congrArg List.length h
  simp only [List.length_append] at this
  omega

theorem dashSegsF_nil (fuel : Nat) : dashSegsF fuel [] = ([], []) := by
  cases fuel <;> rfl

theorem takeWhile_ge_one {l : List Char} {p : Char → Bool}
    (h : ¬(l.takeWhile p).isEmpty = true) : 1 ≤ (l.takeWhile p).length := by
  cases hq : l.takeWhile p with
  | nil => simp [hq, List.isEmpty] at h
  | cons x t => simp

theorem takeWhile_add_dropWhile_length (l : List Char) (p : Char → Bool) :
    (l.takeWhile p).length + (l.dropWhile p).length = l.length := by
  have h := congrArg List.length (List.takeWhile_append_dropWhile (p := p) (l := l))
  simp only [List.length_append] at h
  omega

/-- The fuel of `dashSegsF` is irrelevant once it covers the input length. -/
theorem dashSegsF_fuel : ∀ (f g : Nat) (cs : List Char),
    cs.length ≤ f → cs.length ≤ g → dashSegsF f cs = dashSegsF g cs := by
  intro f
  induction f with
  | zero =>
    intro g cs h1 _
    have : cs = [] := List.eq_nil_of_length_eq_zero (Nat.le_zero.mp h1)
    subst this
    rw [dashSegsF_nil, dashSegsF_nil]
  | succ f ih =>
    intro g cs h1 h2
    cases g with
    | zero =>
      have : cs = [] := List.eq_nil_of_length_eq_zero (Nat.le_zero.mp h2)
      subst this
      rw [dashSegsF_nil, dashSegsF_nil]
    | succ g =>
      cases cs with
      | nil => rfl
      | cons c rest =>
        simp only [dashSegsF]
        by_cases hc : c == '-'
        · simp only [hc, if_true]
          by_cases hw : (rest.takeWhile wordChar).isEmpty
          · simp [hw]
          · simp only [hw, Bool.false_eq_true, if_false]
            have hlen : (rest.dropWhile wordChar).length ≤ f ∧
                (rest.dropWhile wordChar).length ≤ g := by
              have ht := takeWhile_ge_one hw
              have hd := takeWhile_add_dropWhile_length rest wordChar
              simp only [List.length_cons] at h1 h2
              omega
            rw [ih g (rest.dropWhile wordChar) hlen.1 hlen.2]
        · simp [hc]

theorem scanMentionsF_nil (fuel : Nat) : scanMentionsF fuel [] = [] := by
  cases fuel <;> rfl

/-- The fuel of `scanMentionsF` is irrelevant once it covers the input
length. -/
theorem scanMentionsF_fuel : ∀ (f g : Nat) (cs : List Char),
    cs.length ≤ f → cs.length ≤ g → scanMentionsF f cs = scanMentionsF g cs := by
  intro f
  induction f with
  | zero =>
    intro g cs h1 _
    have : cs = [] := List.eq_nil_of_length_eq_zero (Nat.le_zero.mp h1)
    subst this
    rw [scanMentionsF_nil, scanMentionsF_nil]
  | succ f ih =>
    intro g cs h1 h2
    cases g with
    | zero =>
      have : cs = [] := List.eq_nil_of_length_eq_zero (Nat.le_zero.mp h2)
      subst this
      rw [scanMentionsF_nil, scanMentionsF_nil]
    | succ g =>
      cases cs with
      | nil => rfl
      | cons c rest =>
        simp only [List.length_cons] at h1 h2
        simp only [scanMentionsF]
        by_cases hc : c == '@'
        · simp only [hc, if_true]
          by_cases hw : (rest.takeWhile wordChar).isEmpty
          · simp only [hw, if_true]
            exact ih g rest (by omega) (by omega)
          · simp only [hw, Bool.false_eq_true, if_false]
            have hp2 : (dashSegsF rest.length (rest.dropWhile wordChar)).2.length ≤
                (rest.dropWhile wordChar).length :=
              dashSegsF_snd_length _ _
            have ht := takeWhile_ge_one hw
            have hd := takeWhile_add_dropWhile_length rest wordChar
            rw [ih g (dashSegsF rest.length (rest.dropWhile wordChar)).2
              (by omega) (by omega)]
        · simp only [hc, Bool.false_eq_true, if_false]
          exact ih g rest (by omega) (by omega)

theorem canExtend_headWord {r : List Char} (h : canExtend r = false) :
    headWord r = false := by
  cases r with
  | nil => rfl
  | cons c t =>
    simp only [canExtend, Bool.or_eq_false_iff] at h
    simpa [headWord] using h.1

/-- Applied to a list whose head is not a word character, the greedy
dash-segment matcher leaves a remainder from which the token cannot be
extended. -/
theorem canExtend_dashSegsF : ∀ (f : Nat) (cs : List Char), cs.length ≤ f →
    headWord cs = false → canExtend (dashSegsF f cs).2 = false := by
  intro f
  induction f with
  | zero =>
    intro cs h1 _
    have : cs = [] := List.eq_nil_of_length_eq_zero (Nat.le_zero.mp h1)
    subst this
    rfl
  | succ f ih =>
    intro cs h1 hhw
    cases cs with
    | nil => rfl
    | cons c rest =>
      have hcw : wordChar c = false := by simpa [headWord] using hhw
      simp only [List.length_cons] at h1
      simp only [dashSegsF]
      by_cases hc : c == '-'
      · by_cases hw : (rest.takeWhile wordChar).isEmpty
        · simp only [hc, if_true, hw]
          simp [canExtend, hcw, headWord_false_of_takeWhile_empty hw]
        · simp only [hc, if_true, hw, Bool.false_eq_true, if_false]
          have ht := takeWhile_ge_one hw
          have hd := takeWhile_add_dropWhile_length rest wordChar
          exact ih (rest.dropWhile wordChar) (by omega) (headWord_dropWhile rest)
      · simp only [hc, Bool.false_eq_true, if_false]
        simp [canExtend, hcw, hc]

theorem NameOk_head : ∀ {n : List Char}, NameOk n →
    ∃ c t, n = c :: t ∧ wordChar c = true := by
  intro n h
  induction h with
  | base w hne hw =>
    cases w with
    | nil => exact absurd rfl hne
    | cons c t => exact ⟨c, t, rfl, hw c (List.mem_cons_self c t)⟩
  | seg w rest hne hw hrest ih =>
    cases w with
    | nil => exact absurd rfl hne
    | cons c t =>
      exact ⟨c, t ++ '-' :: rest, by simp, hw c (List.mem_cons_self c t)⟩

/-- Words of the body grammar prefixed by a word run stay in the grammar when
extended by whatever the greedy dash matcher consumed. -/
theorem nameOk_dashSegs : ∀ (f : Nat) (cs w : List Char), w ≠ [] →
    (∀ c ∈ w, wordChar c = true) → NameOk (w ++ (dashSegsF f cs).1) := by
  intro f
  induction f with
  | zero =>
    intro cs w hne hw
    have hz : (dashSegsF 0 cs).1 = [] := rfl
    rw [hz, List.append_nil]
    exact NameOk.base w hne hw
  | succ f ih =>
    intro cs w hne hw
    cases cs with
    | nil =>
      have hz : (dashSegsF (f + 1) ([] : List Char)).1 = [] := rfl
      rw [hz, List.append_nil]
      exact NameOk.base w hne hw
    | cons c rest =>
      simp only [dashSegsF]
      by_cases hc : c == '-'
      · by_cases hwt : (rest.takeWhile wordChar).isEmpty
        · simp only [hc, if_true, hwt]
          simpa using NameOk.base w hne hw
        · simp only [hc, if_true, hwt, Bool.false_eq_true, if_false]
          have hc2 : c = '-' := eq_of_beq hc
          subst hc2
          have hne2 : rest.takeWhile wordChar ≠ [] := by
            intro hcon
            simp [hcon, List.isEmpty] at hwt
          have hw2 : ∀ c ∈ rest.takeWhile wordChar, wordChar c = true :=
            fun c hm => List.mem_takeWhile_imp hm
          have := ih (rest.dropWhile wordChar) (rest.takeWhile wordChar) hne2 hw2
          simpa [List.append_assoc] using NameOk.seg w _ hne hw this
      · simp only [hc, Bool.false_eq_true, if_false]
        simpa using NameOk.base w hne hw

/-- Two maximal word runs at the same position agree, as do their tails. -/
theorem word_run_eq : ∀ (w1 w2 t1 t2 : List Char),
    (∀ c ∈ w1, wordChar c = true) → (∀ c ∈ w2, wordChar c = true) →
    headWord t1 = false → headWord t2 = false →
    w1 ++ t1 = w2 ++ t2 → w1 = w2 ∧ t1 = t2 := by
  intro w1
  induction w1 with
  | nil =>
    intro w2 t1 t2 _ hw2 ht1 _ heq
    cases w2 with
    | nil => exact ⟨rfl, by simpa using heq⟩
    | cons b w2b =>
      simp only [List.nil_append] at heq
      rw [heq] at ht1
      have := hw2 b (List.mem_cons_self b w2b)
      simp [headWord, this] at ht1
  | cons a w1a ih =>
    intro w2 t1 t2 hw1 hw2 ht1 ht2 heq
    cases w2 with
    | nil =>
      simp only [List.nil_append] at heq
      rw [← heq] at ht2
      have := hw1 a (List.mem_cons_self a w1a)
      simp [headWord, this] at ht2
    | cons b w2b =>
      simp only [List.cons_append, List.cons.injEq] at heq
      obtain ⟨hab, htail⟩ := heq
      obtain ⟨hh, tt⟩ := ih w2b t1 t2
        (fun c hm => hw1 c (List.mem_cons_of_mem a hm))
        (fun c hm => hw2 c (List.mem_cons_of_mem b hm)) ht1 ht2 htail
      exact ⟨by rw [hab, hh], tt⟩

/-- Maximal-munch uniqueness: a token body followed by a non-extendable
remainder decomposes a string in at most one way. -/
theorem nameOk_munch : ∀ {n1 : List Char}, NameOk n1 →
    ∀ {n2 r1 r2 : List Char}, NameOk n2 →
    canExtend r1 = false → canExtend r2 = false →
    n1 ++ r1 = n2 ++ r2 → n1 = n2 := by
  intro n1 h1
  induction h1 with
  | base w1 hne1 hw1 =>
    intro n2 r1 r2 h2 hr1 hr2 heq
    cases h2 with
    | base _ hne2 hw2 =>
      exact (word_run_eq w1 n2 r1 r2 hw1 hw2
        (canExtend_headWord hr1) (canExtend_headWord hr2) heq).1
    | seg w2 rest2 hne2 hw2 hrest2 =>
      rw [List.append_assoc] at heq
      obtain ⟨hww, htt⟩ := word_run_eq w1 w2 r1 ('-' :: (rest2 ++ r2)) hw1 hw2
        (canExtend_headWord hr1) (by simp [headWord]; decide) heq
      obtain ⟨c, t, hct, hcw⟩ := NameOk_head hrest2
      rw [htt, hct] at hr1
      simp [canExtend, headWord, hcw] at hr1
  | seg w1 rest1 hne1 hw1 hrest1 ih =>
    intro n2 r1 r2 h2 hr1 hr2 heq
    cases h2 with
    | base _ hne2 hw2 =>
      rw [List.append_assoc] at heq
      obtain ⟨hww, htt⟩ := word_run_eq w1 n2 ('-' :: (rest1 ++ r1)) r2 hw1 hw2
        (by simp [headWord]; decide) (canExtend_headWord hr2) heq
      obtain ⟨c, t, hct, hcw⟩ := NameOk_head hrest1
      rw [← htt, hct] at hr2
      simp [canExtend, headWord, hcw] at hr2
    | seg w2 rest2 hne2 hw2 hrest2 =>
      rw [List.append_assoc, List.append_assoc] at heq
      obtain ⟨hww, htt⟩ := word_run_eq w1 w2 ('-' :: (rest1 ++ r1))
        ('-' :: (rest2 ++ r2)) hw1 hw2
        (by simp [headWord]; decide) (by simp [headWord]; decide) heq
      simp only [List.cons.injEq, true_and] at htt
      have := ih hrest2 hr1 hr2 htt
      rw [hww, this]

/-- Soundness: the exec-loop scanner realizes the specification relation. -/
theorem scanMentionsF_spec : ∀ (n : Nat) (cs : List Char), cs.length ≤ n →
    SpecMentions cs (scanMentionsF cs.length cs) := by
  intro n
  induction n with
  | zero =>
    intro cs h
    have : cs = [] := List.eq_nil_of_length_eq_zero (Nat.le_zero.mp h)
    subst this
    exact SpecMentions.nil
  | succ n ih =>
    intro cs h
    cases cs with
    | nil => exact SpecMentions.nil
    | cons c rest =>
      simp only [List.length_cons] at h ⊢
      by_cases hc : c == '@'
      · have hceq : c = '@' := eq_of_beq hc
        subst hceq
        by_cases hw : (rest.takeWhile wordChar).isEmpty
        · have hscan : scanMentionsF (rest.length + 1) ('@' :: rest) =
              scanMentionsF rest.length rest := by
            simp [scanMentionsF, hw]
          rw [hscan]
          refine SpecMentions.skip '@' rest _ ?_ (ih rest (by omega))
          rw [startsTok_cons]
          simp [headWord_false_of_takeWhile_empty hw]
        · obtain ⟨segs, rest2, hds⟩ :
              ∃ a b, dashSegsF rest.length (rest.dropWhile wordChar) = (a, b) :=
            ⟨_, _, rfl⟩
          have hscan : scanMentionsF (rest.length + 1) ('@' :: rest) =
              (rest.takeWhile wordChar ++ segs) :: scanMentionsF rest.length rest2 := by
            simp [scanMentionsF, hw, hds]
          have happ : segs ++ rest2 = rest.dropWhile wordChar := by
            have hx := dashSegsF_append rest.length (rest.dropWhile wordChar)
            rw [hds] at hx
            exact hx
          have ht1 := takeWhile_ge_one hw
          have htd := takeWhile_add_dropWhile_length rest wordChar
          have hlen2 : rest2.length ≤ (rest.dropWhile wordChar).length := by
            have hy := congrArg List.length happ
            simp only [List.length_append] at hy
            omega
          have hmax : canExtend rest2 = false := by
            have hz := canExtend_dashSegsF rest.length (rest.dropWhile wordChar)
              (by omega) (headWord_dropWhile rest)
            rw [hds] at hz
            exact hz
          have hne : rest.takeWhile wordChar ≠ [] := by
            intro hcon
            simp [hcon, List.isEmpty] at hw
          have hname : NameOk (rest.takeWhile wordChar ++ segs) := by
            have hz := nameOk_dashSegs rest.length (rest.dropWhile wordChar)
              (rest.takeWhile wordChar) hne (fun c hm => List.mem_takeWhile_imp hm)
            rw [hds] at hz
            exact hz
          have hsub := ih rest2 (by omega)
          rw [scanMentionsF_fuel rest2.length rest.length rest2 le_rfl (by omega)]
            at hsub
          have htok := SpecMentions.tok (rest.takeWhile wordChar ++ segs) rest2 _
            hname hmax hsub
          have hidx : (rest.takeWhile wordChar ++ segs) ++ rest2 = rest := by
            rw [List.append_assoc, happ, List.takeWhile_append_dropWhile]
          rw [hidx] at htok
          rw [hscan]
          exact htok
      · have hscan : scanMentionsF (rest.length + 1) (c :: rest) =
            scanMentionsF rest.length rest := by
          simp [scanMentionsF, hc]
        rw [hscan]
        refine SpecMentions.skip c rest _ ?_ (ih rest (by omega))
        rw [startsTok_cons]
        simp [hc]

/-- The specification relation is deterministic. -/
theorem specMentions_unique : ∀ {cs : List Char} {ns1 : List (List Char)},
    SpecMentions cs ns1 → ∀ {ns2 : List (List Char)}, SpecMentions cs ns2 →
    ns1 = ns2 := by
  intro cs ns1 h1
  induction h1 with
  | nil =>
    intro ns2 h2
    cases h2
    rfl
  | skip c cs0 ns h hts ih =>
    intro ns2 h2
    cases h2 with
    | skip c2 cs2 ns2b h2b ht2 => exact ih ht2
    | tok name2 rest2 ns2b hname2 hmax2 ht2 =>
      obtain ⟨cw, t, hct, hcw⟩ := NameOk_head hname2
      rw [startsTok_cons, hct] at h
      simp [headWord, hcw] at h
  | tok name rest ns hname hmax hts ih =>
    intro ns2 h2
    generalize hgen : name ++ rest = nr at h2
    cases h2 with
    | skip c2 cs2 ns2b h2b ht2 =>
      obtain ⟨cw, t, hct, hcw⟩ := NameOk_head hname
      rw [startsTok_cons, ← hgen, hct] at h2b
      simp [headWord, hcw] at h2b
    | tok name2 rest2 ns2b hname2 hmax2 ht2 =>
      have hnn : name = name2 := nameOk_munch hname hname2 hmax hmax2 hgen
      subst hnn
      have hrr : rest = rest2 := List.append_cancel_left hgen
      subst hrr
      rw [ih ht2]

/-! ## Association-list lemmas -/

theorem lookup_cons {κ α : Type} [BEq κ] (k k1 : κ) (v1 : α) (rest : List (κ × α)) :
    List.lookup k ((k1, v1) :: rest) = if k == k1 then some v1 else List.lookup k rest := by
  cases hx : k == k1 <;> simp [List.lookup, hx]

theorem beq_symm_false {κ : Type} [BEq κ] [LawfulBEq κ] {a b : κ} (h : ¬(a == b) = true) :
    (b == a) = false := by
  cases hx : b == a
  · rfl
  · exact absurd (by rw [eq_of_beq hx]; exact beq_self_eq_true a) h

theorem lookup_updateA {κ α : Type} [BEq κ] [LawfulBEq κ]
    (m : List (κ × α)) (k : κ) (f : α → α) :
    (updateA m k f).lookup k = (m.lookup k).map f := by
  induction m with
  | nil => rfl
  | cons kv rest ih =>
    obtain ⟨k1, v1⟩ := kv
    by_cases h : k1 == k
    · have hx : k1 = k := eq_of_beq h
      subst hx
      simp only [updateA, List.map_cons, h, if_true]
      rw [lookup_cons, lookup_cons]
      simp only [beq_self_eq_true, if_true]
      rfl
    · simp only [updateA, List.map_cons, h, Bool.false_eq_true, if_false]
      rw [lookup_cons, lookup_cons]
      simp only [beq_symm_false h, Bool.false_eq_true, if_false]
      exact ih

theorem lookup_setA_self {κ α : Type} [BEq κ] [LawfulBEq κ]
    (m : List (κ × α)) (k : κ) (v : α) :
    (setA m k v).lookup k = some v := by
  induction m with
  | nil => simp [setA, List.lookup]
  | cons kv rest ih =>
    obtain ⟨k1, v1⟩ := kv
    by_cases h : k1 == k
    · have hx : k1 = k := eq_of_beq h
      subst hx
      have hall : ((k1, v1) :: rest).any (fun kv => kv.1 == k1) = true := by
        simp [List.any_cons, h]
      simp only [setA, hall, if_true, List.map_cons, h, if_true]
      rw [lookup_cons]
      simp [beq_self_eq_true]
    · by_cases hr : rest.any (fun kv => kv.1 == k)
      · have hall : ((k1, v1) :: rest).any (fun kv => kv.1 == k) = true := by
          simp [List.any_cons, hr]
        simp only [setA, hall, if_true, List.map_cons, h, Bool.false_eq_true, if_false]
        rw [lookup_cons]
        simp only [beq_symm_false h, Bool.false_eq_true, if_false]
        simp only [setA, hr, if_true] at ih
        exact ih
      · have hall : ((k1, v1) :: rest).any (fun kv => kv.1 == k) = false := by
          simp [List.any_cons, h, hr]
        simp only [setA, hall, Bool.false_eq_true, if_false, List.cons_append]
        rw [lookup_cons]
        simp only [beq_symm_false h, Bool.false_eq_true, if_false]
        simp only [setA, hr, Bool.false_eq_true, if_false] at ih
        exact ih

/-! ## Claim theorems -/

/-- C7: for every input string, the mention parser returns exactly the
occurrences, in order of appearance and with duplicates preserved, of tokens
consisting of an at sign followed by one or more word characters optionally
extended by dash-word segments, each returned without the at sign; matching
is case-sensitive (no case folding appears in `SpecMentions` or `wordChar`)
and the parser is a pure function.  The output is the unique list related to
the input by the specification relation. -/
theorem parseMentions_correct (content : String) :
    SpecMentions content.data ((parseMentions content).map String.data) ∧
    ∀ ns, SpecMentions content.data ns → ns = (parseMentions content).map String.data := by
  have hmap : (parseMentions content).map String.data =
      scanMentionsF content.data.length content.data := by
    unfold parseMentions
    rw [List.map_map]
    have hcomp : (String.data ∘ fun cs => String.mk cs) = id := rfl
    rw [hcomp, List.map_id]
  constructor
  · rw [hmap]
    exact scanMentionsF_spec content.data.length content.data le_rfl
  · intro ns h
    rw [hmap]
    exact specMentions_unique h
      (scanMentionsF_spec content.data.length content.data le_rfl)

theorem parseMentions_correct_witness :
    SpecMentions ("hi @Ann-x, @Ann!").data
      ((parseMentions "hi @Ann-x, @Ann!").map String.data) ∧
    ["Ann-x".data, "Ann".data] = (parseMentions "hi @Ann-x, @Ann!").map String.data := by
  have h := parseMentions_correct "hi @Ann-x, @Ann!"
  have he : (parseMentions "hi @Ann-x, @Ann!").map String.data =
      ["Ann-x".data, "Ann".data] := by decide
  exact ⟨h.1, h.2 ["Ann-x".data, "Ann".data] (he ▸ h.1)⟩

/-- C8: sending with an agent id that is not in the agent set answers the
404 branch and returns the hub unchanged: no message log grows, no
notification row is created, nothing is persisted. -/
theorem send_unknown_agent (h : Hub) (agentId content metadata msgId now : String)
    (notifIds : Nat → String) (hA : h.agents.lookup agentId = none) :
    send h agentId content metadata msgId now notifIds = (h, SendOut.notFound) := by
  unfold send
  rw [hA]

theorem send_unknown_agent_witness :
    send emptyHub "ghost" "hello" "" "m1" "t1" (fun _ => "n") =
      (emptyHub, SendOut.notFound) :=
  send_unknown_agent emptyHub "ghost" "hello" "" "m1" "t1" (fun _ => "n") rfl

/-- C10: broadcasting to a room name that was never created (no room entry
and no message log) still succeeds with the fresh message id, changes
nothing in memory, and persists nothing: the content is silently dropped by
the optional-chaining push. -/
theorem broadcast_unknown_room (h : Hub) (roomName content : String)
    (fromQ : Option String) (msgId now : String)
    (_hR : h.rooms.lookup roomName = none)
    (hM : h.messages.lookup roomName = none) :
    broadcast h roomName content fromQ msgId now = (h, msgId) := by
  unfold broadcast
  rw [hM]

theorem broadcast_unknown_room_witness :
    broadcast emptyHub "nowhere" "hello" none "m1" "t1" = (emptyHub, "m1") :=
  broadcast_unknown_room emptyHub "nowhere" "hello" none "m1" "t1" rfl rfl

/-- The hub after joining room "lab" as Alice and sending one chat message.
Both the system join message and the chat message are persisted in the
messages table. -/
def c1Hub : Hub :=
  (send (joinRoom emptyHub "lab" "a1" "Alice" "caps" "room1" "m1" "t1").1
    "a1" "hello lab" "md" "m2" "t2" (fun n => "n" ++ toString n)).1

/-- C1: the restart round-trip fails in the code.  Before the restart the
room log holds the two messages and both are persisted; after re-running the
startup hydration against the same database the room is still listed but its
history is empty, because `loadDataFromDatabase` reads only the rooms table
and installs an empty log for every room.  This contradicts the stated
round-trip (and the README, which says data survives restarts), so it is a
code bug, witnessed here by evaluating the embedded code. -/
theorem restart_loses_history :
    (apiMessages c1Hub "lab" (fun _ => none) none none).length = 2 ∧
    c1Hub.dbMessages.length = 2 ∧
    (restartHub c1Hub).dbMessages.length = 2 ∧
    (listRooms (restartHub c1Hub)).map RoomInfo.name = ["lab"] ∧
    apiMessages (restartHub c1Hub) "lab" (fun _ => none) none none = [] := by
  decide

/-- An agent registered in room "lab": the owner of the memory row below. -/
def c5Hub : Hub :=
  { emptyHub with agents := [("a1",
      { id := "a1", name := "Alice", room := "lab", capabilities := "",
        joinedAt := "t0", lastActive := "t0", socketId := none,
        status := "active" })] }

/-- The row stored for a memory that expired at 10:00:00 UTC on 2025-06-01:
`expiresAt` is the ISO string JavaScript toISOString produces. -/
def c5Row : MemoryRow :=
  { id := "mem1", agentId := "a1", room := "lab", key := "k", value := "v",
    type := "note", createdAt := "2025-06-01T09:00:00.000Z",
    expiresAt := some "2025-06-01T10:00:00.000Z" }

/-- C5: expired memories are not filtered out.  The store writes `expiresAt`
in ISO form (date, letter T, time, Z) while the query compares it as TEXT
against the datetime-now format (date, space, time).  At position ten the
letter T (0x54) exceeds the space (0x20), so within the same UTC day any
stored expiry compares greater than now: here the query runs at
12:00:00 UTC, two hours after the expiry instant, and the row is still
returned, contradicting the claim (a code bug: the WHERE clause is plainly
meant to drop expired rows). -/
theorem expired_memory_still_returned :
    (storeMemory c5Hub "a1" "k" "v" "note" (some "2025-06-01T10:00:00.000Z")
        "mem1" "2025-06-01T09:00:00.000Z").1.dbMemory = [c5Row] ∧
    getMemory [c5Row] "a1" none none "2025-06-01 12:00:00" = [c5Row] := by
  decide

/-- One registered agent named Bob. -/
def c3Agents : List (String × Agent) :=
  [("b1", { id := "b1", name := "Bob", room := "lab", capabilities := "",
            joinedAt := "t0", lastActive := "t0", socketId := none,
            status := "active" })]

/-- A message by Alice mentioning Bob twice. -/
def c3Msg : Message :=
  { id := "m1", type := "message", agentId := some "a1",
    agentName := some "Alice", content := "hi @Bob hi @Bob",
    mentions := ["Bob", "Bob"], metadata := "", timestamp := "t1",
    room := "lab" }

/-- C3 counterexample: a name mentioned twice in one message yields two
notification rows for that recipient, not exactly one: the notifier maps
over the raw mentions list without deduplication. -/
theorem duplicate_mention_two_notifications :
    ((createNotifications c3Agents c3Msg (parseMentions "hi @Bob hi @Bob")
        (fun n => "n" ++ toString n) "t2").countP
      (fun r => r.agentId == "b1")) = 2 := by
  decide

theorem createNotifsAux_count (agents : List (String × Agent)) (msg : Message)
    (notifIds : Nat → String) (now : String) (aid : String) :
    ∀ (i : Nat) (mentions : List String),
    (createNotifsAux agents msg notifIds now i mentions).countP
        (fun r => r.agentId == aid) =
      mentions.countP (fun nm =>
        match findAgentByName agents nm with
        | some a => a.id == aid
        | none => false) := by
  intro i mentions
  induction mentions generalizing i with
  | nil => rfl
  | cons nm rest ih =>
    simp only [createNotifsAux]
    cases hf : findAgentByName agents nm with
    | none =>
      rw [List.countP_cons]
      simp [hf, ih (i + 1)]
    | some a =>
      rw [List.countP_cons, List.countP_cons]
      simp [hf, ih (i + 1)]

/-- C3 amended: one notification row is created per occurrence in the
mentions list whose name resolves (case-sensitively, first match in map
order) to a known agent; a name mentioned k times yields k rows for the
resolved recipient, and unresolved occurrences yield none. -/
theorem createNotifications_per_occurrence (agents : List (String × Agent))
    (msg : Message) (mentions : List String) (notifIds : Nat → String)
    (now : String) (aid : String) :
    (createNotifications agents msg mentions notifIds now).countP
        (fun r => r.agentId == aid) =
      mentions.countP (fun nm =>
        match findAgentByName agents nm with
        | some a => a.id == aid
        | none => false) :=
  createNotifsAux_count agents msg notifIds now aid 0 mentions

/-- An unread notification row. -/
def c4Row : NotificationRow :=
  { id := "n1", agentId := "b1", room := "lab",
    message := "Alice mentioned you: hi...", type := "mention",
    isRead := false, createdAt := "t1" }

/-- C4 counterexample: the second mark-read call on the same id reports
`updated = true` again, not false: sqlite3_changes counts the rows the
UPDATE matched, even when the stored value was already 1. -/
theorem second_markRead_still_reports_updated :
    (markNotificationRead (markNotificationRead [c4Row] "n1").1 "n1").2 = true := by
  decide

/-- C4 amended: for an existing notification id, the first call sets the row
to read and reports `updated = true`; a second call changes nothing in the
table (the write is idempotent) but also reports `updated = true`, because
the flag records whether a row with that id exists, not whether a value
changed. -/
theorem markNotificationRead_idempotent (rows : List NotificationRow)
    (nid : String) (hEx : rows.any (fun r => r.id == nid) = true) :
    (markNotificationRead rows nid).2 = true ∧
    (∀ r ∈ (markNotificationRead rows nid).1, r.id = nid → r.isRead = true) ∧
    (markNotificationRead (markNotificationRead rows nid).1 nid).1 =
      (markNotificationRead rows nid).1 ∧
    (markNotificationRead (markNotificationRead rows nid).1 nid).2 = true := by
  refine ⟨hEx, ?_, ?_, ?_⟩
  · intro r hm hid
    simp only [markNotificationRead, List.mem_map] at hm
    obtain ⟨x, _, hfx⟩ := hm
    by_cases hxe : x.id == nid
    · rw [← hfx]
      simp [hxe]
    · rw [← hfx] at hid ⊢
      simp only [hxe, Bool.false_eq_true, if_false] at hid ⊢
      exact absurd (by rw [hid]; exact beq_self_eq_true nid) hxe
  · simp only [markNotificationRead, List.map_map]
    have hff : ((fun r : NotificationRow =>
        if r.id == nid then { r with isRead := true } else r) ∘
        (fun r : NotificationRow =>
        if r.id == nid then { r with isRead := true } else r)) =
        (fun r : NotificationRow =>
        if r.id == nid then { r with isRead := true } else r) := by
      funext x
      by_cases hxe : x.id == nid
      · have hx2 : x.id = nid := eq_of_beq hxe
        simp [hx2]
      · have hx2 : ¬(x.id = nid) := fun hcon =>
          absurd (by rw [hcon]; exact beq_self_eq_true nid) hxe
        simp [hxe, hx2]
    rw [hff]
  · simp only [markNotificationRead, List.any_map]
    have hpp : ((fun r : NotificationRow => r.id == nid) ∘
        (fun r : NotificationRow =>
        if r.id == nid then { r with isRead := true } else r)) =
        (fun r : NotificationRow => r.id == nid) := by
      funext x
      by_cases hxe : x.id == nid
      · have hx2 : x.id = nid := eq_of_beq hxe
        simp [hx2]
      · have hx2 : ¬(x.id = nid) := fun hcon =>
          absurd (by rw [hcon]; exact beq_self_eq_true nid) hxe
        simp [hxe, hx2]
    rw [hpp]
    exact hEx

theorem markNotificationRead_idempotent_witness :
    (markNotificationRead [c4Row] "n1").2 = true ∧
    (∀ r ∈ (markNotificationRead [c4Row] "n1").1, r.id = "n1" → r.isRead = true) ∧
    (markNotificationRead (markNotificationRead [c4Row] "n1").1 "n1").1 =
      (markNotificationRead [c4Row] "n1").1 ∧
    (markNotificationRead (markNotificationRead [c4Row] "n1").1 "n1").2 = true :=
  markNotificationRead_idempotent [c4Row] "n1" (by decide)

theorem drop_min_length {α : Type} (l : List α) (n : Nat) :
    l.drop (min n l.length) = l.drop n := by
  by_cases h : n ≤ l.length
  · rw [Nat.min_eq_left h]
  · have h2 : min n l.length = l.length :=
      Nat.min_eq_right (Nat.le_of_lt (Nat.lt_of_not_le h))
    rw [h2, List.drop_length]
    exact (List.drop_eq_nil_of_le (Nat.le_of_not_le h)).symm

theorem jsSlice_none_arg (l : List Message) : jsSlice l none = l := by
  unfold jsSlice
  simp

theorem jsSlice_zero (l : List Message) : jsSlice l (some 0) = l := by
  unfold jsSlice
  have h0 : ¬((0 : Int) < 0) := by omega
  simp only [h0, if_false]
  have hmin : (min (0 : Int) (Int.ofNat l.length)) = 0 := by
    simp only [Int.ofNat_eq_coe]
    omega
  rw [hmin]
  simp

theorem jsSlice_pos (l : List Message) (k : Int) (hk : 0 < k) :
    jsSlice l (some k) = l.drop k.toNat := by
  unfold jsSlice
  have h0 : ¬(k < 0) := by omega
  simp only [h0, if_false]
  have hmin : (min k (Int.ofNat l.length)).toNat = min k.toNat l.length := by
    simp only [Int.ofNat_eq_coe]
    omega
  rw [hmin, drop_min_length]

theorem jsSlice_neg (l : List Message) (k : Int) (hk : k < 0) :
    jsSlice l (some k) = l.drop (l.length - (-k).toNat) := by
  unfold jsSlice
  simp only [hk, if_true]
  congr 1
  simp only [Int.ofNat_eq_coe]
  omega

/-- Two messages forming a room log. -/
def c6Log : List Message :=
  [{ id := "m1", type := "message", agentId := some "a1",
     agentName := some "Alice", content := "one", mentions := [],
     metadata := "", timestamp := "t1", room := "lab" },
   { id := "m2", type := "message", agentId := some "a1",
     agentName := some "Alice", content := "two", mentions := [],
     metadata := "", timestamp := "t2", room := "lab" }]

/-- C6 counterexample: a history request with limit 0 returns the whole log,
not the empty list: `slice(-parseInt("0"))` is `slice(0)`. -/
theorem history_limit_zero_counterexample :
    historyMessages c6Log (fun _ => none) none (some "0") = c6Log ∧
    c6Log ≠ [] := by
  decide

/-- C6 amended: limit 0 returns the entire (post-since) log, and so does any
non-numeric limit (`slice(NaN)` starts at 0); a negative limit -k does not
fall back to the default but drops the first k messages (so it can even
return the empty list); only the omitted limit takes the default of the last
100 messages. -/
theorem history_limit_behavior (log : List Message)
    (getTime : String → Option Int) (s1 s2 : String) (j : Int)
    (h1 : jsParseInt s1 = none) (h2 : jsParseInt s2 = some j) (hj : j < 0) :
    historyMessages log getTime none (some "0") = log ∧
    historyMessages log getTime none (some s1) = log ∧
    historyMessages log getTime none (some s2) = log.drop (-j).toNat ∧
    historyMessages log getTime none none = log.drop (log.length - 100) := by
  refine ⟨?_, ?_, ?_, ?_⟩
  · show jsSlice log ((jsParseInt "0").map (fun k => -k)) = log
    have h0 : jsParseInt "0" = some 0 := by decide
    rw [h0]
    show jsSlice log (some 0) = log
    exact jsSlice_zero log
  · show jsSlice log ((jsParseInt s1).map (fun k => -k)) = log
    rw [h1]
    exact jsSlice_none_arg log
  · show jsSlice log ((jsParseInt s2).map (fun k => -k)) = log.drop (-j).toNat
    rw [h2]
    show jsSlice log (some (-j)) = log.drop (-j).toNat
    exact jsSlice_pos log (-j) (by omega)
  · show jsSlice log ((jsParseInt "100").map (fun k => -k)) = log.drop (log.length - 100)
    have h100 : jsParseInt "100" = some 100 := by decide
    rw [h100]
    show jsSlice log (some (-100)) = log.drop (log.length - 100)
    rw [jsSlice_neg log (-100) (by omega)]
    rfl

theorem history_limit_behavior_witness :
    historyMessages c6Log (fun _ => none) none (some "0") = c6Log ∧
    historyMessages c6Log (fun _ => none) none (some "abc") = c6Log ∧
    historyMessages c6Log (fun _ => none) none (some "-2") =
      c6Log.drop (-(-2 : Int)).toNat ∧
    historyMessages c6Log (fun _ => none) none none =
      c6Log.drop (c6Log.length - 100) :=
  history_limit_behavior c6Log (fun _ => none) "abc" "-2" (-2)
    (by decide) (by decide) (by decide)

/-- C2: for an agent registered in a room (its id is in the agent map and its
room has a message log), a send appends exactly one message to that log; the
appended message is the last element, its id equals the returned messageId,
its mentions equal `parseMentions content`, and the sender's lastActive is
updated to the request time. -/
theorem send_appends_message (h : Hub)
    (agentId content metadata msgId now : String) (notifIds : Nat → String)
    (agent : Agent) (log : List Message)
    (hA : h.agents.lookup agentId = some agent)
    (hL : h.messages.lookup agent.room = some log) :
    (send h agentId content metadata msgId now notifIds).2 =
      SendOut.ok msgId (parseMentions content) ∧
    (send h agentId content metadata msgId now notifIds).1.messages.lookup
        agent.room =
      some (log ++ [{ id := msgId, type := "message", agentId := some agentId,
                      agentName := some agent.name, content := content,
                      mentions := parseMentions content, metadata := metadata,
                      timestamp := now, room := agent.room }]) ∧
    (send h agentId content metadata msgId now notifIds).1.agents.lookup
        agentId = some { agent with lastActive := now } := by
  unfold send
  rw [hA]
  dsimp only
  rw [hL]
  dsimp only
  cases hm : (parseMentions content).isEmpty <;>
    refine ⟨rfl, ?_, ?_⟩ <;>
    simp only [hm, Bool.false_eq_true, if_false, if_true] <;>
    first
      | (rw [lookup_updateA, hL]; rfl)
      | (exact lookup_setA_self _ _ _)

/-- Alice, registered in room "lab". -/
def c2Agent : Agent :=
  { id := "a1", name := "Alice", room := "lab", capabilities := "",
    joinedAt := "t0", lastActive := "t0", socketId := none, status := "active" }

def c2Hub : Hub :=
  { emptyHub with agents := [("a1", c2Agent)], messages := [("lab", [])] }

theorem send_appends_message_witness :
    (send c2Hub "a1" "hi @Bob" "" "m1" "t1" (fun _ => "n0")).2 =
      SendOut.ok "m1" (parseMentions "hi @Bob") ∧
    (send c2Hub "a1" "hi @Bob" "" "m1" "t1" (fun _ => "n0")).1.messages.lookup
        c2Agent.room =
      some ([] ++ [{ id := "m1", type := "message", agentId := some "a1",
                     agentName := some c2Agent.name, content := "hi @Bob",
                     mentions := parseMentions "hi @Bob", metadata := "",
                     timestamp := "t1", room := c2Agent.room }]) ∧
    (send c2Hub "a1" "hi @Bob" "" "m1" "t1" (fun _ => "n0")).1.agents.lookup
        "a1" = some { c2Agent with lastActive := "t1" } :=
  send_appends_message c2Hub "a1" "hi @Bob" "" "m1" "t1" (fun _ => "n0")
    c2Agent [] (by decide) (by decide)

theorem lookup_map_setfun {κ α : Type} [BEq κ] [LawfulBEq κ]
    (m : List (κ × α)) (k k2 : κ) (v : α) (hne : (k2 == k) = false) :
    (m.map (fun kv => if kv.1 == k then (k, v) else kv)).lookup k2 =
      m.lookup k2 := by
  induction m with
  | nil => rfl
  | cons kv rest ih =>
    obtain ⟨k1, v1⟩ := kv
    simp only [List.map_cons]
    by_cases h1 : k1 == k
    · have hk1 : k1 = k := eq_of_beq h1
      subst hk1
      simp only [h1, if_true]
      rw [lookup_cons, lookup_cons]
      simp only [hne, Bool.false_eq_true, if_false]
      exact ih
    · simp only [h1, Bool.false_eq_true, if_false]
      rw [lookup_cons, lookup_cons]
      by_cases h2 : k2 == k1
      · simp [h2]
      · simp only [Bool.not_eq_true] at h2
        simp only [h2, Bool.false_eq_true, if_false]
        exact ih

theorem lookup_append_single {κ α : Type} [BEq κ]
    (m : List (κ × α)) (k k2 : κ) (v : α) (hne : (k2 == k) = false) :
    (m ++ [(k, v)]).lookup k2 = m.lookup k2 := by
  induction m with
  | nil =>
    simp only [List.nil_append]
    rw [lookup_cons]
    simp [hne]
  | cons kv rest ih =>
    obtain ⟨k1, v1⟩ := kv
    simp only [List.cons_append]
    rw [lookup_cons, lookup_cons]
    by_cases h2 : k2 == k1
    · simp [h2]
    · simp only [Bool.not_eq_true] at h2
      simp only [h2, Bool.false_eq_true, if_false]
      exact ih

theorem lookup_setA_ne {κ α : Type} [BEq κ] [LawfulBEq κ]
    (m : List (κ × α)) (k k2 : κ) (v : α) (hne : (k2 == k) = false) :
    (setA m k v).lookup k2 = m.lookup k2 := by
  unfold setA
  by_cases hany : m.any (fun kv => kv.1 == k)
  · simp only [hany, if_true]
    exact lookup_map_setfun m k k2 v hne
  · simp only [hany, Bool.false_eq_true, if_false]
    exact lookup_append_single m k k2 v hne

theorem lookup_filter_ne {κ α : Type} [BEq κ] [LawfulBEq κ]
    (m : List (κ × α)) (k k2 : κ) (hne : (k2 == k) = false) :
    (m.filter (fun kv => !(kv.1 == k))).lookup k2 = m.lookup k2 := by
  induction m with
  | nil => rfl
  | cons kv rest ih =>
    obtain ⟨k1, v1⟩ := kv
    by_cases h1 : k1 == k
    · have hk1 : k1 = k := eq_of_beq h1
      subst hk1
      simp only [List.filter_cons, h1, Bool.not_true, Bool.false_eq_true,
        if_false]
      rw [lookup_cons]
      simp only [hne, Bool.false_eq_true, if_false]
      exact ih
    · simp only [Bool.not_eq_true] at h1
      simp only [List.filter_cons, h1, Bool.not_false, if_true]
      rw [lookup_cons, lookup_cons]
      by_cases h2 : k2 == k1
      · simp [h2]
      · simp only [Bool.not_eq_true] at h2
        simp only [h2, Bool.false_eq_true, if_false]
        exact ih

/-- C9: sandbox safety of the shared-filesystem operations (spec-modelled:
the operations are absent from the sources).  First part: whenever the path
argument resolves outside the root after normalization and link chasing --
via dot-dot segments, an absolute path, or a symbolic link pointing outside
-- read, write, list and delete all fail with the path-escape error and the
filesystem is returned unchanged.  Second part, unconditionally: write and
delete never change any entry whose path lies outside the root, so no file
outside the sandbox is modified even on success. -/
theorem sharedFs_sandbox (fs : FileSys) (root : List String) (p : ReqPath)
    (content : String) (fuel : Nat) :
    (∀ phys, resolveShared fs root p fuel = some phys →
      insideRoot root phys = false →
      writeShared fs root p content fuel = (fs, Except.error FsErr.pathEscape) ∧
      readShared fs root p fuel = Except.error FsErr.pathEscape ∧
      deleteShared fs root p fuel = (fs, Except.error FsErr.pathEscape) ∧
      listShared fs root p fuel = Except.error FsErr.pathEscape) ∧
    (∀ q, insideRoot root q = false →
      lookupFs (writeShared fs root p content fuel).1 q = lookupFs fs q ∧
      lookupFs (deleteShared fs root p fuel).1 q = lookupFs fs q) := by
  constructor
  · intro phys hres hout
    refine ⟨?_, ?_, ?_, ?_⟩ <;>
      simp only [writeShared, readShared, deleteShared, listShared, hres,
        hout, Bool.false_eq_true, if_false]
  · intro q hq
    cases hres : resolveShared fs root p fuel with
    | none =>
      simp only [writeShared, deleteShared, hres]
      exact ⟨trivial, trivial⟩
    | some phys =>
      by_cases hin : insideRoot root phys
      · have hqp : (q == phys) = false := by
          cases hx : q == phys
          · rfl
          · have hq2 : q = phys := eq_of_beq hx
            rw [hq2] at hq
            rw [hq] at hin
            exact absurd hin (by simp)
        simp only [writeShared, deleteShared, hres, hin, if_true]
        constructor
        · exact lookup_setA_ne fs.entries phys q (FsEntry.file content) hqp
        · exact lookup_filter_ne fs.entries phys q hqp
      · simp only [writeShared, deleteShared, hres, hin, Bool.false_eq_true,
          if_false]
        exact ⟨trivial, trivial⟩

/-- A filesystem with one file inside the shared root and a symbolic link
inside the root that points outside it. -/
def c9Fs : FileSys :=
  { entries := [ (["srv", "shared", "a.txt"], FsEntry.file "A"),
                 (["srv", "shared", "evil"], FsEntry.link ["srv", "secret"]),
                 (["srv", "secret"], FsEntry.file "top secret") ] }

def c9Root : List String := ["srv", "shared"]

/-- A relative path that climbs out of the root with dot-dot segments. -/
def c9Escape : ReqPath := { absolute := false, segs := ["..", "..", "etc", "passwd"] }

/-- A relative path whose final component is the link pointing outside. -/
def c9Link : ReqPath := { absolute := false, segs := ["evil"] }

theorem sharedFs_sandbox_witness :
    writeShared c9Fs c9Root c9Escape "x" 8 =
      (c9Fs, Except.error FsErr.pathEscape) ∧
    readShared c9Fs c9Root c9Link 8 = Except.error FsErr.pathEscape ∧
    lookupFs (writeShared c9Fs c9Root c9Escape "x" 8).1 ["srv", "secret"] =
      lookupFs c9Fs ["srv", "secret"] := by
  have h1 := sharedFs_sandbox c9Fs c9Root c9Escape "x" 8
  have h2 := sharedFs_sandbox c9Fs c9Root c9Link "" 8
  exact ⟨(h1.1 ["etc", "passwd"] (by decide) (by decide)).1,
         (h2.1 ["srv", "secret"] (by decide) (by decide)).2.1,
         (h1.2 ["srv", "secret"] (by decide)).1⟩
